import Mathlib

/-!
Verification development for the `1million.py` customer-CSV ETL pipeline.

The script reads a CSV file with `csv.DictReader`, filters rows whose
`First Name` starts with `A` and `Last Name` starts with `F`, accumulates
the surviving rows into batches of a configured size, bulk-upserts each
batch into a PostgreSQL `customers` table keyed on `customer_id`, commits,
and finally runs a report query.

We embed the script shallowly:
* a CSV data row is an association list from header labels to cell strings
  (what `csv.DictReader` yields);
* `process_and_insert_csv` becomes a fold over the rows producing the
  sequence of `executemany` call payloads together with the two counters;
* the store is a list of rows and the `INSERT ... ON CONFLICT (customer_id)
  DO UPDATE SET ...` statement becomes an insert-or-replace on that list;
* the report query becomes filter + sort, and printing becomes a list of
  output lines.
-/

set_option autoImplicit false
set_option linter.unusedVariables false

/-- A data row as produced by `csv.DictReader`: an association list from
column labels to cell values.  (`DictReader` builds a dict per row; we keep
the label order and rely on label uniqueness where it matters.) -/
abbrev Row : Type := List (String × String)

/-- `row.get(k)`: first value stored under label `k`, if any. -/
def rowGet (row : Row) (k : String) : Option String :=
  (row.find? (fun kv => kv.1 = k)).map (fun kv => kv.2)

/-- `row.get(k, d)`: lookup with a default, as in `row.get('First Name', '')`. -/
def rowGetD (row : Row) (k d : String) : String :=
  (rowGet row k).getD d

/-- The header labels the script expects, `CSV_HEADERS` (lines 60-63 of the
source): `Index, Customer Id, First Name, Last Name, Company, City, Country,
Phone 1, Phone 2, Email, Subscription Date, Website`. -/
def CSV_HEADERS : List String :=
  ["Index", "Customer Id", "First Name", "Last Name", "Company", "City",
   "Country", "Phone 1", "Phone 2", "Email", "Subscription Date", "Website"]

/-- The tuple built for one kept row, in `DB_COLUMNS` order (source lines
114-126).  Cells fetched with plain `row.get(...)` are `Option String`
(Python `None` when the label is absent); `first_name` and `last_name` are
the already-defaulted strings used by the filter. -/
structure DataTuple where
  customer_id : Option String
  first_name : String
  last_name : String
  company : Option String
  city : Option String
  country : Option String
  phone_1 : Option String
  phone_2 : Option String
  email : Option String
  subscription_date : Option String
  website : Option String
deriving DecidableEq, Repr

/-- Python `s.startswith(p)`: `p` is a prefix of `s`.  Modelled on the
character lists underlying the strings (Lean's own `String.startsWith`
is not kernel-reducible, but has the same meaning). -/
def pyStartsWith (s p : String) : Bool :=
  p.data.isPrefixOf s.data

/-- The filter of source line 107:
`first_name.startswith('A') and last_name.startswith('F')`, where
`first_name = row.get('First Name', '')` and
`last_name = row.get('Last Name', '')` (lines 104-105). -/
def keepRow (row : Row) : Bool :=
  pyStartsWith (rowGetD row "First Name" "") "A" &&
    pyStartsWith (rowGetD row "Last Name" "") "F"

/-- Subscription-date normalisation of source lines 109-111:
`sub_date = row.get('Subscription date')` — note the lower-case `date` in
the key — followed by `if not sub_date: sub_date = None`, which maps both
`None` and the empty string to `None`. -/
def subDateOf (row : Row) : Option String :=
  match rowGet row "Subscription date" with
  | none => none
  | some s => if s = "" then none else some s

/-- The `data_tuple` of source lines 114-126, built from one kept row. -/
def mkDataTuple (row : Row) : DataTuple :=
  { customer_id := rowGet row "Customer Id"
    first_name := rowGetD row "First Name" ""
    last_name := rowGetD row "Last Name" ""
    company := rowGet row "Company"
    city := rowGet row "City"
    country := rowGet row "Country"
    phone_1 := rowGet row "Phone 1"
    phone_2 := rowGet row "Phone 2"
    email := rowGet row "Email"
    subscription_date := subDateOf row
    website := rowGet row "Website" }

/-- Loop state of `process_and_insert_csv`: the current `batch`, the two
counters `total_processed` and `total_inserted`, and the list of
`cur.executemany(sql_insert, batch)` payloads issued so far (in order). -/
structure LoadState where
  batch : List DataTuple
  processed : Nat
  inserted : Nat
  calls : List (List DataTuple)
deriving DecidableEq, Repr

/-- One iteration of the `for row in reader` loop (source lines 100-135):
count the row as processed; if it passes the filter, append its tuple to
the batch and count it as inserted; then, if `len(batch) >= batch_size`,
issue the batch as one `executemany` call and reset the batch. -/
def stepRow (batchSize : Nat) (s : LoadState) (row : Row) : LoadState :=
  let processed := s.processed + 1
  let batch := if keepRow row then s.batch ++ [mkDataTuple row] else s.batch
  let inserted := if keepRow row then s.inserted + 1 else s.inserted
  if batchSize ≤ batch.length then
    { batch := [], processed := processed, inserted := inserted,
      calls := s.calls ++ [batch] }
  else
    { batch := batch, processed := processed, inserted := inserted,
      calls := s.calls }

/-- The trailing flush of source lines 138-141: `if batch:` issue one final
`executemany` with the remaining rows (skipped when the batch is empty). -/
def finishLoad (s : LoadState) : LoadState :=
  if s.batch = [] then s
  else { s with batch := [], calls := s.calls ++ [s.batch] }

/-- The whole of `process_and_insert_csv` on an already-parsed source
(header removed, rows in file order): fold the loop body over the rows
starting from empty state, then flush the trailing batch. -/
def processCSV (rows : List Row) (batchSize : Nat) : LoadState :=
  finishLoad (rows.foldl (stepRow batchSize) ⟨[], 0, 0, []⟩)

/-- The normalised tuples of the rows that pass the filter, in source
order. -/
def keptTuples (rows : List Row) : List DataTuple :=
  (rows.filter keepRow).map mkDataTuple

/-- `process_and_insert_csv` ends without a `return` statement (source
lines 53-151), so its Python return value is `None` on every path —
in particular it never returns the two counters. -/
def process_and_insert_csv_return (rows : List Row) (batchSize : Nat) :
    Option (Nat × Nat) :=
  none

-- Concrete rows (from the spec's worked example) used in witnesses below.
def exRowAliceFox : Row :=
  [("Index", "1"), ("Customer Id", "1"), ("First Name", "Alice"),
   ("Last Name", "Fox"), ("Subscription Date", "2020-01-01")]

def exRowBobFox : Row :=
  [("Index", "2"), ("Customer Id", "2"), ("First Name", "Bob"),
   ("Last Name", "Fox")]

def exRowAdamFord : Row :=
  [("Index", "3"), ("Customer Id", "3"), ("First Name", "Adam"),
   ("Last Name", "Ford"), ("Company", "Acme")]

def exRowAnnFrost : Row :=
  [("Index", "4"), ("Customer Id", "4"), ("First Name", "Ann"),
   ("Last Name", "Frost")]

/-- Four example rows of which exactly three pass the filter. -/
def exRows : List Row :=
  [exRowAliceFox, exRowBobFox, exRowAdamFord, exRowAnnFrost]

/-- A row with no First Name cell at all. -/
def exRowNoName : Row := [("Customer Id", "9"), ("Last Name", "Fox")]

/-! ### The store and the upsert statement -/

/-- The conflict key of the upsert: the `customer_id` column. -/
def keyOf (t : DataTuple) : Option String := t.customer_id

/-- The `INSERT INTO customers ... ON CONFLICT (customer_id) DO UPDATE SET
first_name = EXCLUDED.first_name, ...` statement of source lines 73-87,
applied to one parameter tuple.  The store is the list of rows of the
`customers` table in insertion order (list position standing in for the
auto-increment surrogate key `id`).  If a stored row already carries the
incoming `customer_id`, every non-key column is overwritten with the
incoming value — since the key is equal, that is a full replacement of the
row — and no new row appears; otherwise the tuple is inserted at the
end. -/
def upsertOne (db : List DataTuple) (t : DataTuple) : List DataTuple :=
  if db.any (fun r => decide (keyOf r = keyOf t)) then
    db.map (fun r => if keyOf r = keyOf t then t else r)
  else db ++ [t]

/-- `cur.executemany(sql_insert, batch)` (source lines 132-133 and
139-140): the upsert statement runs once per tuple of the batch, in batch
order. -/
def execMany (db : List DataTuple) (batch : List DataTuple) : List DataTuple :=
  batch.foldl upsertOne db

/-- Net effect on the store of one `process_and_insert_csv` run: the
`executemany` calls it issues are applied to the store in order. -/
def loadInto (db : List DataTuple) (rows : List Row) (N : Nat) :
    List DataTuple :=
  ((processCSV rows N).calls).foldl execMany db

/-- The stored `customer_id` values, in row order. -/
def dbKeys (db : List DataTuple) : List (Option String) := db.map keyOf

/-- The first stored row carrying key `k`, if any. -/
def findKey (db : List DataTuple) (k : Option String) : Option DataTuple :=
  db.find? (fun r => decide (keyOf r = k))

/-- The last tuple of `ts` carrying key `k`, if any ("newest source value"
for that key). -/
def lastWith (ts : List DataTuple) (k : Option String) : Option DataTuple :=
  match ts with
  | [] => none
  | t :: ts' =>
    match lastWith ts' k with
    | some u => some u
    | none => if keyOf t = k then some t else none

/-- A tuple carrying Alice Fox's `customer_id` but a different company:
re-ingesting it must overwrite her stored row. -/
def exTupAliceNewCo : DataTuple :=
  { mkDataTuple exRowAliceFox with company := some "NewCo" }

/-! ### Transaction trace of a successful run -/

/-- Database traffic of the script, for reasoning about when commits
happen. -/
inductive DbEvent where
  | ddl
  | commit
  | write (batch : List DataTuple)
  | query
deriving DecidableEq, Repr

/-- `setup_database` (source lines 40-44): execute the CREATE TABLE
statement, then `conn.commit()` — the schema setup commits on its own. -/
def setupEvents : List DbEvent := [DbEvent.ddl, DbEvent.commit]

/-- Store traffic of `process_and_insert_csv`: one write per `executemany`
call; the function itself never commits. -/
def loaderEvents (rows : List Row) (N : Nat) : List DbEvent :=
  ((processCSV rows N).calls).map DbEvent.write

/-- Database events of a successful run of the `__main__` block (source
lines 190-207): `setup_database`, then the loader's writes, then the single
data `conn.commit()` of line 202, then the report query. -/
def mainSuccessEvents (rows : List Row) (N : Nat) : List DbEvent :=
  setupEvents ++ loaderEvents rows N ++ [DbEvent.commit] ++ [DbEvent.query]

/-! ### Failure model of the Batch Loader and the top-level handler -/

/-- The readable source as the Batch Loader sees it: either `open` raises
`FileNotFoundError`, or the file parses to a list of data rows. -/
inductive SourceInput where
  | missing
  | present (rows : List Row)

/-- Outcome of `process_and_insert_csv` (source lines 95-151) against a
store that may reject a call: `failsAt = some i` means the `i`-th
`executemany` call (0-based) raises.  A missing file is caught inside the
function (lines 147-148): the error is printed, nothing is read, and the
function returns normally with both counters at 0.  Any exception from the
store reaches the `except Exception` handler of lines 149-151, which
re-raises it (`raise`), so it escapes the function. -/
def runLoader (src : SourceInput) (N : Nat) (failsAt : Option Nat) :
    Except Unit LoadState :=
  match src with
  | .missing => .ok ⟨[], 0, 0, []⟩
  | .present rows =>
    match failsAt with
    | some i =>
        if i < (processCSV rows N).calls.length then .error ()
        else .ok (processCSV rows N)
    | none => .ok (processCSV rows N)

/-- Disposition of the top-level handler (source lines 196-216): when the
loader returns normally, the run proceeds to the data commit of line 202;
when the loader raises, the `except (Exception, psycopg2.DatabaseError)`
handler prints and calls `conn.rollback()` (line 216), and the data commit
never runs.  The result is the pair (committed, rolledBack). -/
def mainDisposition (src : SourceInput) (N : Nat) (failsAt : Option Nat) :
    Bool × Bool :=
  match runLoader src N failsAt with
  | .ok _ => (true, false)
  | .error _ => (false, true)

/-! ### The report reader -/

/-- One result row of the report query: the four selected columns.
`first_name` and `last_name` are non-null strings (every row the loader
writes has them); `company` and `subscription_date` may be SQL NULL. -/
structure ReportRow where
  first_name : String
  last_name : String
  company : Option String
  subscription_date : Option String
deriving DecidableEq, Repr

/-- The SELECT list `first_name, last_name, company, subscription_date`
of source line 160. -/
def projReport (t : DataTuple) : ReportRow :=
  ⟨t.first_name, t.last_name, t.company, t.subscription_date⟩

/-- Lexicographic comparison of character lists (byte-wise string
comparison, written out so that it evaluates in the kernel). -/
def charListLe (a b : List Char) : Bool :=
  match a, b with
  | [], _ => true
  | _ :: _, [] => false
  | c1 :: t1, c2 :: t2 => if c1 = c2 then charListLe t1 t2 else decide (c1 < c2)

/-- Byte-wise string comparison; on ISO `YYYY-MM-DD` date strings it orders
exactly like the dates they denote, which is how the `DATE` column
compares. -/
def strLe (s t : String) : Bool := charListLe s.data t.data

/-- Descending comparison of two nullable dates: later dates first; SQL
NULLs first (PostgreSQL's default for descending order). -/
def optDateLe (x y : Option String) : Bool :=
  match x, y with
  | none, _ => true
  | some _, none => false
  | some x, some y => strLe y x

/-- `ORDER BY subscription_date DESC` (source line 163) as a comparison on
result rows. -/
def reportLe (a b : ReportRow) : Bool :=
  optDateLe a.subscription_date b.subscription_date

/-- The report query of source lines 159-164: select the four columns of
exactly the stored rows whose `first_name` begins with `A` and `last_name`
begins with `F` (`LIKE 'A%'` / `LIKE 'F%'`), ordered by
`subscription_date` descending. -/
def queryCustomers (db : List DataTuple) : List ReportRow :=
  ((db.filter (fun t =>
      pyStartsWith t.first_name "A" && pyStartsWith t.last_name "F")).map
    projReport).mergeSort reportLe

/-- Python's f-string rendering of a fetched value: `None` prints as
`None`, everything else as itself. -/
def pyShow (v : Option String) : String := v.getD "None"

/-- The per-row print of source line 178. -/
def formatReportRow (r : ReportRow) : String :=
  "Name: " ++ r.first_name ++ " " ++ r.last_name ++ ", Company: " ++
    pyShow r.company ++ ", Subscribed: " ++ pyShow r.subscription_date

/-- The notice of source line 174. -/
def noMatchesLine : String := "No matching customers found in the database."

/-- The report of source line 181 (the exception detail elided). -/
def queryErrorLine : String := "An error occurred while querying the database."

/-- `get_filtered_customers` (source lines 154-181) as a function from the
fetch outcome to the lines it prints: a read failure is caught by the
`except` of line 180 and reported, so the function never raises; an empty
result prints the single no-matches notice; otherwise one formatted line
per result row, in result order. -/
def get_filtered_customers (res : Except Unit (List ReportRow)) :
    List String :=
  match res with
  | .error _ => [queryErrorLine]
  | .ok results =>
      if results = [] then [noMatchesLine]
      else results.map formatReportRow

example : keepRow exRowAliceFox = true := by decide
example : keepRow exRowBobFox = false := by decide
example : (processCSV [exRowAliceFox, exRowBobFox] 1000).processed = 2 := by decide
example : (processCSV [exRowAliceFox, exRowBobFox] 1000).inserted = 1 := by decide
example : (mkDataTuple exRowAliceFox).subscription_date = none := by decide

/-! ### Behaviour of one loop iteration -/

theorem stepRow_keep_full (N : Nat) (s : LoadState) (row : Row)
    (hk : keepRow row = true)
    (hfull : N ≤ (s.batch ++ [mkDataTuple row]).length) :
    stepRow N s row =
      ⟨[], s.processed + 1, s.inserted + 1,
        s.calls ++ [s.batch ++ [mkDataTuple row]]⟩ := by
  have h' : N ≤ s.batch.length + 1 := by simpa using hfull
  simp [stepRow, hk, h']

theorem stepRow_keep_notfull (N : Nat) (s : LoadState) (row : Row)
    (hk : keepRow row = true)
    (hfull : ¬ N ≤ (s.batch ++ [mkDataTuple row]).length) :
    stepRow N s row =
      ⟨s.batch ++ [mkDataTuple row], s.processed + 1, s.inserted + 1,
        s.calls⟩ := by
  have h' : ¬ N ≤ s.batch.length + 1 := by simpa using hfull
  simp [stepRow, hk, h']

theorem stepRow_drop (N : Nat) (s : LoadState) (row : Row)
    (hk : keepRow row = false) (hb : ¬ N ≤ s.batch.length) :
    stepRow N s row = ⟨s.batch, s.processed + 1, s.inserted, s.calls⟩ := by
  simp [stepRow, hk, hb]

theorem stepRow_processed (N : Nat) (s : LoadState) (row : Row) :
    (stepRow N s row).processed = s.processed + 1 := by
  simp only [stepRow]
  split <;> split <;> rfl

theorem stepRow_inserted (N : Nat) (s : LoadState) (row : Row) :
    (stepRow N s row).inserted =
      if keepRow row then s.inserted + 1 else s.inserted := by
  by_cases hk : keepRow row = true
  · simp only [stepRow, hk, if_true]
    split <;> rfl
  · simp [stepRow, hk]
    split <;> rfl

theorem keptTuples_nil : keptTuples [] = [] := rfl

theorem keptTuples_cons_keep {r : Row} (rs : List Row)
    (hk : keepRow r = true) :
    keptTuples (r :: rs) = mkDataTuple r :: keptTuples rs := by
  simp [keptTuples, hk]

theorem keptTuples_cons_drop {r : Row} (rs : List Row)
    (hk : keepRow r = false) :
    keptTuples (r :: rs) = keptTuples rs := by
  simp [keptTuples, hk]

/-! ### The loop invariant of `process_and_insert_csv`

For a positive batch size, every batch issued inside the loop has exactly
`N` tuples, the pending batch stays strictly below `N`, the counters count
rows and kept rows, and the tuples issued so far followed by the pending
batch are exactly the kept tuples in source order. -/

theorem foldl_stepRow_spec (N : Nat) (hN : 0 < N) (rs : List Row) :
    ∀ s : LoadState, (∀ c ∈ s.calls, c.length = N) → s.batch.length < N →
      (rs.foldl (stepRow N) s).processed = s.processed + rs.length ∧
      (rs.foldl (stepRow N) s).inserted
        = s.inserted + (rs.filter keepRow).length ∧
      (rs.foldl (stepRow N) s).calls.flatten ++ (rs.foldl (stepRow N) s).batch
        = s.calls.flatten ++ s.batch ++ keptTuples rs ∧
      (∀ c ∈ (rs.foldl (stepRow N) s).calls, c.length = N) ∧
      (rs.foldl (stepRow N) s).batch.length < N := by
  induction rs with
  | nil =>
    intro s hc hb
    exact ⟨by simp, by simp, by simp [keptTuples], hc, hb⟩
  | cons r rs ih =>
    intro s hc hb
    rw [List.foldl_cons]
    by_cases hk : keepRow r
    · by_cases hfull : N ≤ (s.batch ++ [mkDataTuple r]).length
      · rw [stepRow_keep_full N s r hk hfull]
        have hlen : (s.batch ++ [mkDataTuple r]).length = N := by
          simp at hfull ⊢
          omega
        have hc' : ∀ c ∈ s.calls ++ [s.batch ++ [mkDataTuple r]],
            c.length = N := by
          intro c hcmem
          rcases List.mem_append.1 hcmem with h | h
          · exact hc c h
          · simp at h
            subst h
            exact hlen
        obtain ⟨h1, h2, h3, h4, h5⟩ :=
          ih ⟨[], s.processed + 1, s.inserted + 1,
              s.calls ++ [s.batch ++ [mkDataTuple r]]⟩ hc' (by simpa using hN)
        refine ⟨by rw [h1, List.length_cons]; dsimp only; omega, ?_, ?_, h4, h5⟩
        · rw [h2]
          simp [hk]
          omega
        · rw [h3, keptTuples_cons_keep rs hk]
          simp
      · rw [stepRow_keep_notfull N s r hk hfull]
        have hb' : (s.batch ++ [mkDataTuple r]).length < N := by
          simp at hfull ⊢
          omega
        obtain ⟨h1, h2, h3, h4, h5⟩ :=
          ih ⟨s.batch ++ [mkDataTuple r], s.processed + 1, s.inserted + 1,
              s.calls⟩ hc hb'
        refine ⟨by rw [h1, List.length_cons]; dsimp only; omega, ?_, ?_, h4, h5⟩
        · rw [h2]
          simp [hk]
          omega
        · rw [h3, keptTuples_cons_keep rs hk]
          simp
    · rw [stepRow_drop N s r (by simpa using hk) (by omega)]
      obtain ⟨h1, h2, h3, h4, h5⟩ :=
        ih ⟨s.batch, s.processed + 1, s.inserted, s.calls⟩ hc hb
      refine ⟨by rw [h1, List.length_cons]; dsimp only; omega, ?_, ?_, h4, h5⟩
      · rw [h2]
        simp [hk]
      · rw [h3, keptTuples_cons_drop rs (by simpa using hk)]

/-! ### Counters -/

theorem finishLoad_processed (s : LoadState) :
    (finishLoad s).processed = s.processed := by
  unfold finishLoad
  split <;> rfl

theorem finishLoad_inserted (s : LoadState) :
    (finishLoad s).inserted = s.inserted := by
  unfold finishLoad
  split <;> rfl

theorem foldl_stepRow_processed (N : Nat) (rs : List Row) :
    ∀ s : LoadState,
      (rs.foldl (stepRow N) s).processed = s.processed + rs.length := by
  induction rs with
  | nil => intro s; simp
  | cons r rs ih =>
    intro s
    rw [List.foldl_cons, ih, stepRow_processed, List.length_cons]
    omega

theorem foldl_stepRow_inserted (N : Nat) (rs : List Row) :
    ∀ s : LoadState,
      (rs.foldl (stepRow N) s).inserted
        = s.inserted + (rs.filter keepRow).length := by
  induction rs with
  | nil => intro s; simp
  | cons r rs ih =>
    intro s
    rw [List.foldl_cons, ih, stepRow_inserted]
    by_cases hk : keepRow r = true
    · simp [hk, List.filter_cons]
      omega
    · simp [hk, List.filter_cons]

theorem processCSV_processed (rows : List Row) (N : Nat) :
    (processCSV rows N).processed = rows.length := by
  unfold processCSV
  rw [finishLoad_processed, foldl_stepRow_processed]
  simp

theorem processCSV_inserted (rows : List Row) (N : Nat) :
    (processCSV rows N).inserted = (rows.filter keepRow).length := by
  unfold processCSV
  rw [finishLoad_inserted, foldl_stepRow_inserted]
  simp

/-! ### Shape of the sequence of `executemany` calls -/

theorem flatten_length_of_const {α : Type} (l : List (List α)) (N : Nat)
    (h : ∀ c ∈ l, c.length = N) : l.flatten.length = l.length * N := by
  induction l with
  | nil => simp
  | cons c l ih =>
    have hc : c.length = N := h c (by simp)
    have ih' := ih (fun c hc => h c (by simp [hc]))
    simp [List.length_append, hc, ih', Nat.succ_mul]
    omega

theorem div_of_mul_add (N q r : Nat) (hN : 0 < N) (hr : r < N) :
    (q * N + r) / N = q := by
  rw [Nat.mul_comm, Nat.mul_add_div hN, Nat.div_eq_of_lt hr, Nat.add_zero]

theorem mod_of_mul_add (N q r : Nat) (hr : r < N) :
    (q * N + r) % N = r := by
  rw [Nat.mul_comm, Nat.mul_add_mod, Nat.mod_eq_of_lt hr]

theorem ceil_of_mul_add (N q r : Nat) (hN : 0 < N) (hr : r < N) :
    (q * N + r + N - 1) / N = if r = 0 then q else q + 1 := by
  by_cases h0 : r = 0
  · subst h0
    have he : q * N + 0 + N - 1 = N * q + (N - 1) := by
      rw [Nat.mul_comm N q]
      omega
    rw [he, Nat.mul_add_div hN, Nat.div_eq_of_lt (by omega), if_pos rfl]
    omega
  · have he : q * N + r + N - 1 = N * (q + 1) + (r - 1) := by
      have hrpos : 0 < r := Nat.pos_of_ne_zero h0
      rw [Nat.mul_comm N (q + 1)]
      have hqN : (q + 1) * N = q * N + N := by ring
      omega
    rw [he, Nat.mul_add_div hN, Nat.div_eq_of_lt (by omega), if_neg h0]

/-- What the trailing flush does to a state satisfying the loop invariant:
the final call list consists of full batches of exactly `N` tuples followed,
when `M` is not a multiple of `N`, by one final call of `M % N` tuples,
`M` being the total number of tuples issued. -/
theorem finishLoad_calls_spec (s : LoadState) (N M : Nat) (hN : 0 < N)
    (hc : ∀ c ∈ s.calls, c.length = N) (hb : s.batch.length < N)
    (hM : s.calls.flatten.length + s.batch.length = M) :
    (finishLoad s).calls.length = (M + N - 1) / N ∧
    (∀ c ∈ (finishLoad s).calls.dropLast, c.length = N) ∧
    (∀ l, (finishLoad s).calls.getLast? = some l →
        l.length = if M % N = 0 then N else M % N) ∧
    (M = 0 → (finishLoad s).calls = []) ∧
    (finishLoad s).calls.flatten = s.calls.flatten ++ s.batch := by
  have hflat : s.calls.flatten.length = s.calls.length * N :=
    flatten_length_of_const _ N hc
  have hM' : M = s.calls.length * N + s.batch.length := by omega
  unfold finishLoad
  by_cases hbe : s.batch = []
  · rw [if_pos hbe]
    have hr : s.batch.length = 0 := by simp [hbe]
    have hmod : M % N = 0 := by
      rw [hM', hr, mod_of_mul_add N _ 0 hN]
    refine ⟨?_, ?_, ?_, ?_, ?_⟩
    · rw [hM', hr, Nat.add_zero, ← Nat.add_zero (s.calls.length * N),
        ceil_of_mul_add N _ 0 hN hN, if_pos rfl]
    · exact fun c hcm => hc c (List.dropLast_subset _ hcm)
    · intro l hl
      rw [hmod, if_pos rfl]
      exact hc l (List.mem_of_mem_getLast? hl)
    · intro h0
      rw [hM', hr] at h0
      have h00 : s.calls.length * N = 0 := by omega
      rcases Nat.mul_eq_zero.1 h00 with h | h
      · exact List.length_eq_zero.1 h
      · omega
    · simp [hbe]
  · rw [if_neg hbe]
    have hr : 0 < s.batch.length := List.length_pos.2 hbe
    have hmod : M % N = s.batch.length := by
      rw [hM', mod_of_mul_add N _ _ hb]
    refine ⟨?_, ?_, ?_, ?_, ?_⟩
    · show (s.calls ++ [s.batch]).length = (M + N - 1) / N
      rw [hM', ceil_of_mul_add N _ _ hN hb, if_neg (by omega)]
      simp
    · show ∀ c ∈ (s.calls ++ [s.batch]).dropLast, c.length = N
      rw [List.dropLast_concat]
      exact hc
    · show ∀ l, (s.calls ++ [s.batch]).getLast? = some l → _
      intro l hl
      rw [List.getLast?_concat] at hl
      rw [hmod, if_neg (by omega)]
      cases hl
      rfl
    · intro h0
      omega
    · show (s.calls ++ [s.batch]).flatten = s.calls.flatten ++ s.batch
      simp

/-- Full characterisation of the call sequence issued by
`process_and_insert_csv` for a positive batch size: the concatenation of
the calls is exactly the kept tuples in source order, there are
`⌈M / N⌉` calls, every non-final call has exactly `N` tuples, the final
call has `M % N` tuples (`N` when `N` divides `M`), and no call at all is
issued when nothing passes the filter. -/
theorem processCSV_calls_spec (rows : List Row) (N : Nat) (hN : 0 < N) :
    (processCSV rows N).calls.flatten = keptTuples rows ∧
    (processCSV rows N).calls.length = ((keptTuples rows).length + N - 1) / N ∧
    (∀ c ∈ (processCSV rows N).calls.dropLast, c.length = N) ∧
    (∀ l, (processCSV rows N).calls.getLast? = some l →
        l.length = if (keptTuples rows).length % N = 0 then N
          else (keptTuples rows).length % N) ∧
    ((keptTuples rows).length = 0 → (processCSV rows N).calls = []) := by
  obtain ⟨-, -, h3, h4, h5⟩ :=
    foldl_stepRow_spec N hN rows ⟨[], 0, 0, []⟩ (by simp) (by simpa using hN)
  have hM : (rows.foldl (stepRow N) ⟨[], 0, 0, []⟩).calls.flatten.length
      + (rows.foldl (stepRow N) ⟨[], 0, 0, []⟩).batch.length
      = (keptTuples rows).length := by
    rw [← List.length_append, h3]
    simp
  obtain ⟨g1, g2, g3, g4, g5⟩ :=
    finishLoad_calls_spec (rows.foldl (stepRow N) ⟨[], 0, 0, []⟩) N
      (keptTuples rows).length hN h4 h5 hM
  refine ⟨?_, g1, g2, g3, g4⟩
  show (finishLoad _).calls.flatten = _
  rw [g5, h3]
  simp

/-! ### Properties of the upsert statement -/

theorem keyOf_replace (t r : DataTuple) :
    keyOf (if keyOf r = keyOf t then t else r) = keyOf r := by
  split
  · exact (by assumption : keyOf r = keyOf t).symm
  · rfl

theorem dbKeys_map_replace (db : List DataTuple) (t : DataTuple) :
    dbKeys (db.map (fun r => if keyOf r = keyOf t then t else r))
      = dbKeys db := by
  unfold dbKeys
  rw [List.map_map]
  exact List.map_congr_left (fun r _ => keyOf_replace t r)

theorem any_key_iff_mem (db : List DataTuple) (t : DataTuple) :
    (db.any (fun r => decide (keyOf r = keyOf t)) = true)
      ↔ keyOf t ∈ dbKeys db := by
  constructor
  · intro h
    obtain ⟨r, hr, he⟩ := List.any_eq_true.1 h
    simp only [decide_eq_true_eq] at he
    simp only [dbKeys, List.mem_map]
    exact ⟨r, hr, he⟩
  · intro h
    simp only [dbKeys, List.mem_map] at h
    obtain ⟨r, hr, he⟩ := h
    exact List.any_eq_true.2 ⟨r, hr, by simp [he]⟩

theorem dbKeys_upsertOne (db : List DataTuple) (t : DataTuple) :
    dbKeys (upsertOne db t) =
      if keyOf t ∈ dbKeys db then dbKeys db else dbKeys db ++ [keyOf t] := by
  unfold upsertOne
  by_cases h : keyOf t ∈ dbKeys db
  · rw [if_pos ((any_key_iff_mem db t).2 h), dbKeys_map_replace, if_pos h]
  · rw [if_neg (fun hc => h ((any_key_iff_mem db t).1 hc)), if_neg h]
    simp [dbKeys]

theorem length_upsertOne_of_mem (db : List DataTuple) (t : DataTuple)
    (h : keyOf t ∈ dbKeys db) : (upsertOne db t).length = db.length := by
  unfold upsertOne
  rw [if_pos ((any_key_iff_mem db t).2 h)]
  simp

theorem findKey_eq_none_of_not_mem (db : List DataTuple) (k : Option String)
    (h : k ∉ dbKeys db) : findKey db k = none := by
  apply List.find?_eq_none.2
  intro r hr
  simp only [decide_eq_true_eq]
  intro he
  exact h (by simp [dbKeys, List.mem_map]; exact ⟨r, hr, he⟩)

theorem mem_dbKeys_of_findKey_some (db : List DataTuple) (k : Option String)
    (u : DataTuple) (h : findKey db k = some u) : k ∈ dbKeys db := by
  have hm := List.mem_of_find?_eq_some h
  have hp := List.find?_some h
  simp only [decide_eq_true_eq] at hp
  simp only [dbKeys, List.mem_map]
  exact ⟨u, hm, hp⟩

theorem findKey_map_replace_ne (db : List DataTuple) (t : DataTuple)
    (k : Option String) (hk : k ≠ keyOf t) :
    findKey (db.map (fun r => if keyOf r = keyOf t then t else r)) k
      = findKey db k := by
  induction db with
  | nil => rfl
  | cons r db ih =>
    simp only [List.map_cons]
    unfold findKey
    rw [List.find?_cons, List.find?_cons]
    by_cases h1 : keyOf r = keyOf t
    · rw [if_pos h1]
      have hpt : decide (keyOf t = k) = false := by
        simp
        exact fun he => hk he.symm
      have hpr : decide (keyOf r = k) = false := by
        simp
        rw [h1]
        exact fun he => hk he.symm
      rw [hpt, hpr]
      exact ih
    · rw [if_neg h1]
      cases hpr : decide (keyOf r = k)
      · exact ih
      · rfl

theorem findKey_map_replace_self (db : List DataTuple) (t : DataTuple)
    (h : keyOf t ∈ dbKeys db) :
    findKey (db.map (fun r => if keyOf r = keyOf t then t else r)) (keyOf t)
      = some t := by
  induction db with
  | nil => simp [dbKeys] at h
  | cons r db ih =>
    simp only [List.map_cons]
    unfold findKey
    rw [List.find?_cons]
    by_cases h1 : keyOf r = keyOf t
    · rw [if_pos h1]
      simp
    · rw [if_neg h1]
      have hpr : decide (keyOf r = keyOf t) = false := by simp [h1]
      rw [hpr]
      apply ih
      rcases (by simpa [dbKeys] using h : keyOf t = keyOf r ∨ keyOf t ∈ dbKeys db) with he | hm
      · exact absurd he.symm h1
      · exact hm

theorem findKey_upsertOne (db : List DataTuple) (t : DataTuple)
    (k : Option String) :
    findKey (upsertOne db t) k =
      if k = keyOf t then some t else findKey db k := by
  unfold upsertOne
  by_cases hmem : keyOf t ∈ dbKeys db
  · rw [if_pos ((any_key_iff_mem db t).2 hmem)]
    by_cases hk : k = keyOf t
    · subst hk
      rw [findKey_map_replace_self db t hmem, if_pos rfl]
    · rw [findKey_map_replace_ne db t k hk, if_neg hk]
  · rw [if_neg (fun hc => hmem ((any_key_iff_mem db t).1 hc))]
    by_cases hk : k = keyOf t
    · subst hk
      have hnone : findKey db (keyOf t) = none :=
        findKey_eq_none_of_not_mem db _ hmem
      unfold findKey at hnone ⊢
      rw [List.find?_append, hnone, if_pos rfl]
      simp [List.find?]
    · rw [if_neg hk]
      have hpt : decide (keyOf t = k) = false := by
        simp only [decide_eq_false_iff_not]
        exact fun he => hk he.symm
      unfold findKey
      rw [List.find?_append]
      simp [List.find?, hpt]

theorem nodup_dbKeys_upsertOne (db : List DataTuple) (t : DataTuple)
    (h : (dbKeys db).Nodup) : (dbKeys (upsertOne db t)).Nodup := by
  rw [dbKeys_upsertOne]
  by_cases hm : keyOf t ∈ dbKeys db
  · rw [if_pos hm]
    exact h
  · rw [if_neg hm]
    simp [List.nodup_append, h, hm]

theorem nodup_dbKeys_foldl (ts : List DataTuple) :
    ∀ db : List DataTuple, (dbKeys db).Nodup →
      (dbKeys (ts.foldl upsertOne db)).Nodup := by
  induction ts with
  | nil => intro db h; exact h
  | cons t ts ih =>
    intro db h
    rw [List.foldl_cons]
    exact ih _ (nodup_dbKeys_upsertOne db t h)

theorem lastWith_keyOf (ts : List DataTuple) :
    ∀ (k : Option String) (u : DataTuple), lastWith ts k = some u →
      keyOf u = k := by
  induction ts with
  | nil => intro k u h; simp [lastWith] at h
  | cons t ts ih =>
    intro k u h
    unfold lastWith at h
    cases hl : lastWith ts k with
    | some v =>
      rw [hl] at h
      cases h
      exact ih k u hl
    | none =>
      rw [hl] at h
      by_cases ht : keyOf t = k
      · rw [if_pos ht] at h
        cases h
        exact ht
      · rw [if_neg ht] at h
        cases h

theorem lastWith_of_mem (ts : List DataTuple) (t : DataTuple) (h : t ∈ ts) :
    ∃ u, lastWith ts (keyOf t) = some u := by
  induction ts with
  | nil => cases h
  | cons a ts ih =>
    unfold lastWith
    rcases List.mem_cons.1 h with he | hm
    · cases hl : lastWith ts (keyOf t) with
      | some v => exact ⟨v, rfl⟩
      | none =>
        subst he
        exact ⟨t, by rw [if_pos rfl]⟩
    · obtain ⟨u, hu⟩ := ih hm
      rw [hu]
      exact ⟨u, rfl⟩

theorem lastWith_cons (t : DataTuple) (ts : List DataTuple)
    (k : Option String) :
    lastWith (t :: ts) k =
      match lastWith ts k with
      | some u => some u
      | none => if keyOf t = k then some t else none := rfl

/-- Replaying a tuple sequence over any store: the first row found under a
key is the newest tuple of the sequence with that key, and otherwise
whatever the store had. -/
theorem findKey_foldl_upsert (ts : List DataTuple) :
    ∀ (db : List DataTuple) (k : Option String),
      findKey (ts.foldl upsertOne db) k =
        match lastWith ts k with
        | some u => some u
        | none => findKey db k := by
  induction ts with
  | nil => intro db k; simp [lastWith]
  | cons t ts ih =>
    intro db k
    rw [List.foldl_cons, ih, lastWith_cons]
    cases hl : lastWith ts k with
    | some u => rfl
    | none =>
      by_cases ht : keyOf t = k
      · rw [findKey_upsertOne, if_pos ht.symm, if_pos ht]
      · rw [findKey_upsertOne, if_neg (fun he => ht he.symm), if_neg ht]

theorem dbKeys_foldl_of_mem (ts : List DataTuple) :
    ∀ db : List DataTuple, (∀ t ∈ ts, keyOf t ∈ dbKeys db) →
      dbKeys (ts.foldl upsertOne db) = dbKeys db := by
  induction ts with
  | nil => intro db _; rfl
  | cons t ts ih =>
    intro db h
    rw [List.foldl_cons]
    have ht : keyOf t ∈ dbKeys db := h t (by simp)
    have hk : dbKeys (upsertOne db t) = dbKeys db := by
      rw [dbKeys_upsertOne, if_pos ht]
    rw [ih (upsertOne db t) (fun u hu => by rw [hk]; exact h u (by simp [hu])),
      hk]

/-- Two stores with no duplicate keys, the same key column and the same
row under every key are the same store. -/
theorem eq_of_dbKeys_findKey (db1 : List DataTuple) :
    ∀ db2 : List DataTuple, (dbKeys db1).Nodup → dbKeys db1 = dbKeys db2 →
      (∀ k, findKey db1 k = findKey db2 k) → db1 = db2 := by
  induction db1 with
  | nil =>
    intro db2 _ hk _
    cases db2 with
    | nil => rfl
    | cons r2 d2 => simp [dbKeys] at hk
  | cons r1 d1 ih =>
    intro db2 hnd hk hf
    cases db2 with
    | nil => simp [dbKeys] at hk
    | cons r2 d2 =>
      have hk' : keyOf r1 = keyOf r2 ∧ dbKeys d1 = dbKeys d2 := by
        simpa [dbKeys] using hk
      have hr : r1 = r2 := by
        have h1 := hf (keyOf r1)
        unfold findKey at h1
        rw [List.find?_cons, List.find?_cons] at h1
        rw [decide_eq_true (by rfl : keyOf r1 = keyOf r1),
          decide_eq_true hk'.1.symm] at h1
        exact (Option.some.injEq _ _ ▸ h1 : r1 = r2)
      subst hr
      have hnd1 : (dbKeys d1).Nodup := (List.nodup_cons.1 (by simpa [dbKeys] using hnd)).2
      have hout : keyOf r1 ∉ dbKeys d1 :=
        (List.nodup_cons.1 (by simpa [dbKeys] using hnd)).1
      have hout2 : keyOf r1 ∉ dbKeys d2 := by
        rw [← hk'.2]
        exact hout
      have hfd : ∀ k, findKey d1 k = findKey d2 k := by
        intro k
        by_cases hkk : k = keyOf r1
        · subst hkk
          rw [findKey_eq_none_of_not_mem d1 _ hout,
            findKey_eq_none_of_not_mem d2 _ hout2]
        · have h1 := hf k
          unfold findKey at h1 ⊢
          rw [List.find?_cons, List.find?_cons] at h1
          rw [decide_eq_false (fun he => hkk he.symm)] at h1
          exact h1
      rw [ih d2 hnd1 hk'.2 hfd]

/-- Replaying the very sequence of tuples that built a store over that
store changes nothing: every key is already present, and the newest tuple
per key is already in place. -/
theorem foldl_upsert_idempotent (ts : List DataTuple) :
    ts.foldl upsertOne (ts.foldl upsertOne []) = ts.foldl upsertOne [] := by
  have hnil : (dbKeys ([] : List DataTuple)).Nodup := by simp [dbKeys]
  have hnd1 : (dbKeys (ts.foldl upsertOne [])).Nodup :=
    nodup_dbKeys_foldl ts [] hnil
  have hmem : ∀ t ∈ ts, keyOf t ∈ dbKeys (ts.foldl upsertOne []) := by
    intro t ht
    obtain ⟨u, hu⟩ := lastWith_of_mem ts t ht
    apply mem_dbKeys_of_findKey_some _ _ u
    rw [findKey_foldl_upsert ts [] (keyOf t), hu]
  apply eq_of_dbKeys_findKey
  · exact nodup_dbKeys_foldl ts _ hnd1
  · exact dbKeys_foldl_of_mem ts _ hmem
  · intro k
    rw [findKey_foldl_upsert, findKey_foldl_upsert]
    cases hl : lastWith ts k with
    | some u => rfl
    | none => rfl

theorem filter_replace_nil (db : List DataTuple) (t : DataTuple)
    (h : keyOf t ∉ dbKeys db) :
    (db.map (fun r => if keyOf r = keyOf t then t else r)).filter
      (fun r => decide (keyOf r = keyOf t)) = [] := by
  induction db with
  | nil => rfl
  | cons r db ih =>
    have h1 : keyOf r ≠ keyOf t := by
      intro he
      exact h (by simp [dbKeys, he.symm])
    have h2 : keyOf t ∉ dbKeys db := fun hm => h (by simp [dbKeys] at hm ⊢; exact Or.inr hm)
    simp only [List.map_cons, List.filter_cons]
    rw [if_neg h1]
    rw [decide_eq_false h1]
    exact ih h2

/-- After replacement at a stored key, exactly one row carries that key:
the incoming tuple. -/
theorem filter_replace_eq (db : List DataTuple) (t : DataTuple)
    (hnd : (dbKeys db).Nodup) (hmem : keyOf t ∈ dbKeys db) :
    (db.map (fun r => if keyOf r = keyOf t then t else r)).filter
      (fun r => decide (keyOf r = keyOf t)) = [t] := by
  induction db with
  | nil => simp [dbKeys] at hmem
  | cons r db ih =>
    have hnd' : (dbKeys db).Nodup :=
      (List.nodup_cons.1 (by simpa [dbKeys] using hnd)).2
    have hout : keyOf r ∉ dbKeys db :=
      (List.nodup_cons.1 (by simpa [dbKeys] using hnd)).1
    simp only [List.map_cons, List.filter_cons]
    by_cases h1 : keyOf r = keyOf t
    · rw [if_pos h1]
      rw [decide_eq_true (by rfl : keyOf t = keyOf t)]
      have hnotin : keyOf t ∉ dbKeys db := by
        rw [← h1]
        exact hout
      rw [filter_replace_nil db t hnotin]
      simp
    · rw [if_neg h1]
      rw [decide_eq_false h1]
      apply ih hnd'
      rcases (by simpa [dbKeys] using hmem :
          keyOf t = keyOf r ∨ keyOf t ∈ dbKeys db) with he | hm
      · exact absurd he.symm h1
      · exact hm

/-- Upserting a tuple whose key is already stored leaves exactly one row
with that key — the incoming tuple, all fields overwritten — and does not
change the number of stored rows. -/
theorem upsertOne_overwrite (db : List DataTuple) (t : DataTuple)
    (hnd : (dbKeys db).Nodup) (hmem : keyOf t ∈ dbKeys db) :
    (upsertOne db t).filter (fun r => decide (keyOf r = keyOf t)) = [t] ∧
    (upsertOne db t).length = db.length := by
  constructor
  · unfold upsertOne
    rw [if_pos ((any_key_iff_mem db t).2 hmem)]
    exact filter_replace_eq db t hnd hmem
  · exact length_upsertOne_of_mem db t hmem

theorem foldl_execMany_flatten (calls : List (List DataTuple)) :
    ∀ db : List DataTuple,
      calls.foldl execMany db = calls.flatten.foldl upsertOne db := by
  induction calls with
  | nil => intro db; rfl
  | cons c calls ih =>
    intro db
    rw [List.foldl_cons, ih, List.flatten_cons, List.foldl_append]
    rfl

/-- For a positive batch size, the net effect of a load on the store is
the fold of the upsert over the kept tuples in source order. -/
theorem loadInto_eq_foldl (db : List DataTuple) (rows : List Row) (N : Nat)
    (hN : 0 < N) :
    loadInto db rows N = (keptTuples rows).foldl upsertOne db := by
  unfold loadInto
  rw [foldl_execMany_flatten, (processCSV_calls_spec rows N hN).1]

/-! ### The report ordering is a total preorder -/

theorem charListLe_total : ∀ a b : List Char,
    charListLe a b = true ∨ charListLe b a = true
  | [], _ => Or.inl rfl
  | _ :: _, [] => Or.inr rfl
  | c1 :: t1, c2 :: t2 => by
    by_cases h : c1 = c2
    · subst h
      unfold charListLe
      rw [if_pos rfl, if_pos rfl]
      exact charListLe_total t1 t2
    · unfold charListLe
      rw [if_neg h, if_neg (Ne.symm h)]
      rcases lt_or_gt_of_ne h with hlt | hgt
      · exact Or.inl (by simpa using hlt)
      · exact Or.inr (by simpa using hgt)

theorem charListLe_trans : ∀ a b c : List Char,
    charListLe a b = true → charListLe b c = true → charListLe a c = true
  | [], _, _, _, _ => rfl
  | _ :: _, [], _, h1, _ => by simp [charListLe] at h1
  | _ :: _, _ :: _, [], _, h2 => by simp [charListLe] at h2
  | a :: as, b :: bs, c :: cs, h1, h2 => by
    unfold charListLe at h1 h2 ⊢
    by_cases hab : a = b
    · subst hab
      rw [if_pos rfl] at h1
      by_cases hbc : a = c
      · subst hbc
        rw [if_pos rfl] at h2 ⊢
        exact charListLe_trans as bs cs h1 h2
      · rw [if_neg hbc] at h2 ⊢
        exact h2
    · rw [if_neg hab] at h1
      by_cases hbc : b = c
      · subst hbc
        rw [if_neg hab]
        exact h1
      · rw [if_neg hbc] at h2
        have hac : a < c :=
          lt_trans (of_decide_eq_true h1) (of_decide_eq_true h2)
        rw [if_neg (ne_of_lt hac)]
        exact decide_eq_true hac

theorem optDateLe_total : ∀ x y : Option String,
    optDateLe x y = true ∨ optDateLe y x = true
  | none, _ => Or.inl rfl
  | some _, none => Or.inr rfl
  | some a, some b => by
    simp only [optDateLe, strLe]
    exact charListLe_total b.data a.data

theorem optDateLe_trans : ∀ x y z : Option String,
    optDateLe x y = true → optDateLe y z = true → optDateLe x z = true
  | none, _, _, _, _ => rfl
  | some _, none, _, h1, _ => by simp [optDateLe] at h1
  | some _, some _, none, _, h2 => by simp [optDateLe] at h2
  | some a, some b, some c, h1, h2 => by
    simp only [optDateLe, strLe] at h1 h2 ⊢
    exact charListLe_trans c.data b.data a.data h2 h1

/-- The report rows come out sorted by `subscription_date` descending. -/
theorem queryCustomers_sorted (db : List DataTuple) :
    (queryCustomers db).Pairwise (fun a b => reportLe a b = true) := by
  unfold queryCustomers
  apply List.sorted_mergeSort
  · intro a b c h1 h2
    exact optDateLe_trans _ _ _ h1 h2
  · intro a b
    rw [Bool.or_eq_true]
    exact optDateLe_total a.subscription_date b.subscription_date

/-- The report rows are exactly the projections of the stored rows that
match the `LIKE 'A%' / LIKE 'F%'` predicate (as a multiset). -/
theorem queryCustomers_perm (db : List DataTuple) :
    (queryCustomers db).Perm
      ((db.filter (fun t =>
          pyStartsWith t.first_name "A" && pyStartsWith t.last_name "F")).map
        projReport) :=
  List.mergeSort_perm _ _

/-! ### The claims -/

/-- C1: a source row is forwarded to the store — appended to a batch and
counted by `total_inserted` — if and only if its First Name value starts
with `A` and its Last Name value starts with `F`, compared
case-sensitively, a missing value reading as the empty string: the
concatenation of all issued batches is exactly the tuples of the rows
satisfying that predicate in source order, the inserted counter counts
exactly those rows, and a row missing either name cell is never kept. -/
theorem claim_C1_filter (rows : List Row) (N : Nat) (hN : 0 < N) :
    (processCSV rows N).calls.flatten =
      (rows.filter (fun r =>
        pyStartsWith (rowGetD r "First Name" "") "A" &&
          pyStartsWith (rowGetD r "Last Name" "") "F")).map mkDataTuple ∧
    (processCSV rows N).inserted =
      (rows.filter (fun r =>
        pyStartsWith (rowGetD r "First Name" "") "A" &&
          pyStartsWith (rowGetD r "Last Name" "") "F")).length ∧
    (∀ r : Row,
      rowGet r "First Name" = none ∨ rowGet r "Last Name" = none →
        keepRow r = false) := by
  refine ⟨(processCSV_calls_spec rows N hN).1, processCSV_inserted rows N, ?_⟩
  intro r h
  rcases h with h | h
  · have he : rowGetD r "First Name" "" = "" := by simp [rowGetD, h]
    unfold keepRow
    rw [he]
    rw [show pyStartsWith "" "A" = false from rfl, Bool.false_and]
  · have he : rowGetD r "Last Name" "" = "" := by simp [rowGetD, h]
    unfold keepRow
    rw [he]
    rw [show pyStartsWith "" "F" = false from rfl, Bool.and_false]

theorem claim_C1_witness :
    0 < 1000 ∧
    (processCSV exRows 1000).calls.flatten =
      (exRows.filter (fun r =>
        pyStartsWith (rowGetD r "First Name" "") "A" &&
          pyStartsWith (rowGetD r "Last Name" "") "F")).map mkDataTuple ∧
    keepRow exRowNoName = false :=
  ⟨by decide, (claim_C1_filter exRows 1000 (by decide)).1,
    (claim_C1_filter exRows 1000 (by decide)).2.2 exRowNoName (by decide)⟩

/-- C2 (code bug, evaluated): on the spec's example row — which uses the
documented header label `Subscription Date` and value `2020-01-01`, and
passes the filter — the loader stores NULL for `subscription_date`,
because line 109 reads the value under `Subscription date` (lower-case
`d`), a label such a source never has.  The claim that the value is passed
through unchanged fails here. -/
theorem claim_C2_failing_eval :
    keepRow exRowAliceFox = true ∧
    rowGet exRowAliceFox "Subscription Date" = some "2020-01-01" ∧
    (mkDataTuple exRowAliceFox).subscription_date = none :=
  ⟨by decide, by decide, by decide⟩

/-- C3 (corrected): the two counters are tracked correctly — `processed`
counts every data row, `inserted` counts exactly the rows that passed the
filter — and are printed in the completion summary, but the Python
function ends without a `return` statement, so they are not returned to
the caller. -/
theorem claim_C3_counters (rows : List Row) (N : Nat) :
    (processCSV rows N).processed = rows.length ∧
    (processCSV rows N).inserted = (rows.filter keepRow).length ∧
    process_and_insert_csv_return rows N = none :=
  ⟨processCSV_processed rows N, processCSV_inserted rows N, rfl⟩

/-- C3 (counterexample to the claim as stated): on the spec's two-row
example the function's return value is `None`, not the pair of counters
it tracked. -/
theorem claim_C3_counterexample :
    process_and_insert_csv_return [exRowAliceFox, exRowBobFox] 1000 ≠
      some ((processCSV [exRowAliceFox, exRowBobFox] 1000).processed,
        (processCSV [exRowAliceFox, exRowBobFox] 1000).inserted) := by
  simp [process_and_insert_csv_return]

/-- C4: with batch size `N > 0` and `M` filtered rows, the loader issues
exactly `⌈M / N⌉` bulk write calls; every call but the last carries
exactly `N` records; the last carries `M % N` records (`N` when `N`
divides `M`); and when the trailing batch is empty no final flush call is
made — in particular `M = 0` yields no calls at all. -/
theorem claim_C4_batching (rows : List Row) (N : Nat) (hN : 0 < N) :
    (processCSV rows N).calls.length
      = ((keptTuples rows).length + N - 1) / N ∧
    (∀ c ∈ (processCSV rows N).calls.dropLast, c.length = N) ∧
    (∀ l, (processCSV rows N).calls.getLast? = some l →
      l.length = if (keptTuples rows).length % N = 0 then N
        else (keptTuples rows).length % N) ∧
    ((keptTuples rows).length = 0 → (processCSV rows N).calls = []) := by
  obtain ⟨-, h2, h3, h4, h5⟩ := processCSV_calls_spec rows N hN
  exact ⟨h2, h3, h4, h5⟩

theorem claim_C4_witness :
    0 < 2 ∧
    (processCSV exRows 2).calls.length
      = ((keptTuples exRows).length + 2 - 1) / 2 :=
  ⟨by decide, (claim_C4_batching exRows 2 (by decide)).1⟩

/-- C5: the upsert is keyed on `customer_id` with full-replace semantics —
upserting a tuple whose key is already stored leaves exactly one row with
that key, namely the incoming tuple with every non-key column overwritten,
and the row count unchanged — and consequently loading the same source
twice leaves the store exactly as loading it once. -/
theorem claim_C5_upsert :
    (∀ (db : List DataTuple) (t : DataTuple), (dbKeys db).Nodup →
      keyOf t ∈ dbKeys db →
      (upsertOne db t).filter (fun r => decide (keyOf r = keyOf t)) = [t] ∧
      (upsertOne db t).length = db.length) ∧
    (∀ (rows : List Row) (N : Nat), 0 < N →
      loadInto (loadInto [] rows N) rows N = loadInto [] rows N) := by
  constructor
  · exact fun db t hnd hmem => upsertOne_overwrite db t hnd hmem
  · intro rows N hN
    rw [loadInto_eq_foldl (loadInto [] rows N) rows N hN,
      loadInto_eq_foldl [] rows N hN]
    exact foldl_upsert_idempotent (keptTuples rows)

theorem claim_C5_witness :
    ((dbKeys [mkDataTuple exRowAliceFox]).Nodup ∧
      keyOf exTupAliceNewCo ∈ dbKeys [mkDataTuple exRowAliceFox] ∧
      (upsertOne [mkDataTuple exRowAliceFox] exTupAliceNewCo).filter
        (fun r => decide (keyOf r = keyOf exTupAliceNewCo))
        = [exTupAliceNewCo]) ∧
    (0 < 2 ∧ loadInto (loadInto [] exRows 2) exRows 2 = loadInto [] exRows 2) :=
  ⟨⟨by decide, by decide,
      (claim_C5_upsert.1 [mkDataTuple exRowAliceFox] exTupAliceNewCo
        (by decide) (by decide)).1⟩,
    ⟨by decide, claim_C5_upsert.2 exRows 2 (by decide)⟩⟩

/-- C6 (counterexample to the claim as stated): a successful run commits
twice — `setup_database` commits its DDL at line 43 before any loading,
and the data commit of line 202 follows — so the run is not "committed
exactly once with nothing committed before". -/
theorem claim_C6_counterexample :
    ¬ (mainSuccessEvents [] 1000).count DbEvent.commit = 1 := by decide

/-- C6 (amended): the Schema Initializer commits its own DDL in a
separate, earlier commit; the Batch Loader performs no commit at all — not
per batch, not per step — and the loader's work is committed exactly once,
by the single data commit that follows its successful completion; a
successful run therefore contains exactly two commits. -/
theorem claim_C6_amended (rows : List Row) (N : Nat) :
    mainSuccessEvents rows N =
      [DbEvent.ddl, DbEvent.commit] ++ loaderEvents rows N ++
        [DbEvent.commit, DbEvent.query] ∧
    (loaderEvents rows N).count DbEvent.commit = 0 ∧
    (mainSuccessEvents rows N).count DbEvent.commit = 2 := by
  have h0 : (loaderEvents rows N).count DbEvent.commit = 0 := by
    apply List.count_eq_zero.2
    intro hmem
    unfold loaderEvents at hmem
    obtain ⟨b, -, hb⟩ := List.mem_map.1 hmem
    simp at hb
  refine ⟨?_, h0, ?_⟩
  · unfold mainSuccessEvents setupEvents
    simp [List.append_assoc]
  · unfold mainSuccessEvents setupEvents
    rw [List.count_append, List.count_append, List.count_append, h0]
    rw [show ([DbEvent.ddl, DbEvent.commit] : List DbEvent).count
          DbEvent.commit = 1 from by decide,
      show ([DbEvent.commit] : List DbEvent).count DbEvent.commit = 1
        from by decide,
      show ([DbEvent.query] : List DbEvent).count DbEvent.commit = 0
        from by decide]

/-- C7: a missing source file is the one recoverable loader condition —
the loader returns normally with nothing read and the run proceeds to
commit — while a store failure on any issued write call escapes the
loader, reaching the top-level handler, which rolls the session back and
never runs the data commit. -/
theorem claim_C7_failures :
    (∀ (N : Nat) (f : Option Nat),
      runLoader SourceInput.missing N f = Except.ok ⟨[], 0, 0, []⟩ ∧
      mainDisposition SourceInput.missing N f = (true, false)) ∧
    (∀ (rows : List Row) (N i : Nat),
      i < (processCSV rows N).calls.length →
      runLoader (SourceInput.present rows) N (some i) = Except.error () ∧
      mainDisposition (SourceInput.present rows) N (some i) = (false, true)) := by
  constructor
  · intro N f
    exact ⟨rfl, rfl⟩
  · intro rows N i h
    constructor
    · simp only [runLoader]
      rw [if_pos h]
    · simp only [mainDisposition, runLoader]
      rw [if_pos h]

theorem claim_C7_witness :
    0 < (processCSV exRows 2).calls.length ∧
    runLoader (SourceInput.present exRows) 2 (some 0) = Except.error () ∧
    mainDisposition (SourceInput.present exRows) 2 (some 0) = (false, true) :=
  ⟨by decide, (claim_C7_failures.2 exRows 2 0 (by decide)).1,
    (claim_C7_failures.2 exRows 2 0 (by decide)).2⟩

/-- C8: the report query selects `first_name, last_name, company,
subscription_date` for exactly the stored rows whose `first_name` begins
with `A` and `last_name` begins with `F`, ordered by `subscription_date`
descending; each result row prints as
`Name: {first} {last}, Company: {company}, Subscribed: {date}`; an empty
result prints the single no-matches notice instead; and a read failure is
caught and reported rather than escaping. -/
theorem claim_C8_report :
    (∀ db : List DataTuple,
      (queryCustomers db).Pairwise (fun a b => reportLe a b = true) ∧
      (queryCustomers db).Perm
        ((db.filter (fun t =>
          pyStartsWith t.first_name "A" && pyStartsWith t.last_name "F")).map
          projReport)) ∧
    (∀ rs : List ReportRow, rs ≠ [] →
      get_filtered_customers (Except.ok rs) = rs.map formatReportRow) ∧
    get_filtered_customers (Except.ok []) = [noMatchesLine] ∧
    (∀ e : Unit, get_filtered_customers (Except.error e) = [queryErrorLine]) := by
  refine ⟨fun db => ⟨queryCustomers_sorted db, queryCustomers_perm db⟩,
    ?_, rfl, fun e => rfl⟩
  intro rs h
  simp only [get_filtered_customers]
  rw [if_neg h]

theorem claim_C8_witness :
    ([⟨"Alice", "Fox", none, none⟩] : List ReportRow) ≠ [] ∧
    get_filtered_customers
        (Except.ok [(⟨"Alice", "Fox", none, none⟩ : ReportRow)]) =
      [(⟨"Alice", "Fox", none, none⟩ : ReportRow)].map formatReportRow :=
  ⟨by decide, claim_C8_report.2.1 [⟨"Alice", "Fox", none, none⟩] (by decide)⟩

/-- C9: on any source whose cells all use the documented header labels
(including `Subscription Date`), every tuple the loader appends to a batch
carries `None` in the `subscription_date` position, whatever the row's
actual Subscription Date value, because line 109 looks the value up under
the label `Subscription date` (lower-case `d`), which no such source
has. -/
theorem claim_C9_sub_none (rows : List Row) (N : Nat) (hN : 0 < N)
    (hheaders : ∀ r ∈ rows, ∀ kv ∈ r, Prod.fst kv ∈ CSV_HEADERS) :
    ∀ b ∈ (processCSV rows N).calls, ∀ t ∈ b,
      t.subscription_date = none := by
  intro b hb t ht
  have htf : t ∈ (processCSV rows N).calls.flatten :=
    List.mem_flatten.2 ⟨b, hb, ht⟩
  rw [(processCSV_calls_spec rows N hN).1] at htf
  simp only [keptTuples, List.mem_map, List.mem_filter] at htf
  obtain ⟨r, ⟨hr, -⟩, hteq⟩ := htf
  have hnone : rowGet r "Subscription date" = none := by
    unfold rowGet
    have hfind : r.find? (fun kv => kv.1 = "Subscription date") = none := by
      apply List.find?_eq_none.2
      intro kv hkv
      simp only [decide_eq_true_eq]
      intro he
      have hks := hheaders r hr kv hkv
      rw [he] at hks
      exact absurd hks (by decide)
    rw [hfind]
    rfl
  rw [← hteq]
  show subDateOf r = none
  unfold subDateOf
  rw [hnone]

theorem claim_C9_witness :
    (0 < 1000 ∧ ∀ r ∈ exRows, ∀ kv ∈ r, Prod.fst kv ∈ CSV_HEADERS) ∧
    (∀ b ∈ (processCSV exRows 1000).calls, ∀ t ∈ b,
      t.subscription_date = none) :=
  ⟨⟨by decide, by decide⟩,
    claim_C9_sub_none exRows 1000 (by decide) (by decide)⟩

/-- C10: for every positive batch size, the concatenation, in call order,
of the record sequences passed to the bulk write calls is exactly the
sequence of normalised kept rows in source order — no row dropped,
duplicated or reordered across batch boundaries. -/
theorem claim_C10_stream (rows : List Row) (N : Nat) (hN : 0 < N) :
    (processCSV rows N).calls.flatten = keptTuples rows :=
  (processCSV_calls_spec rows N hN).1

theorem claim_C10_witness :
    0 < 2 ∧ (processCSV exRows 2).calls.flatten = keptTuples exRows :=
  ⟨by decide, claim_C10_stream exRows 2 (by decide)⟩
